import Mathlib

/-!
Verification development for the warthog hierarchical shortest-path core.

Shallow embedding of:
 - the first-move bitset `fm_label`
   (src/contraction/fch_down_dfs_expansion_policy.cpp, compute_down_dijkstra_postorder);
 - the Stage-B bitset callback `on_generate_fn` (same file);
 - the rank-biased expansion `fch_down_dfs_expansion_policy::expand` (same file);
 - the best-first engine `flexible_astar::search` (src/search/flexible_astar.h);
 - the label builder stages C/D/E (src/label/down_dfs_labelling.cpp).

Machine doubles used for g/f costs carry exact values in every scenario the
claims touch, so costs are embedded as `Nat`; `warthog::INF` sentinels become
`Option` (`none` = INF) except where the source itself compares against the
`INT32_MAX` sentinel, in which case the literal sentinel is kept.
-/

namespace Warthog

/-! ### fm_label: the 32-byte first-move bitset
Translated from `compute_down_dijkstra_postorder` (fch_down_dfs_expansion_policy.cpp,
lines 112-149).  A byte is a `Nat` that stays below 256; a write past the 32-byte
array (`move_id / 8 >= 32`) is out of bounds in the source, embedded as `none`. -/

def FM_BYTES : Nat := 32

structure fm_label where
  lab_ : Fin FM_BYTES → Nat

/-- Default constructor: all 32 bytes zero. -/
def fm_label.initLabel : fm_label := ⟨fun _ => 0⟩

/-- `add(move_id)`: set bit `move_id % 8` of byte `move_id / 8`.
`none` models the out-of-array write the C++ performs when `move_id / 8 >= 32`. -/
def fm_label.add (l : fm_label) (move_id : Nat) : Option fm_label :=
  let fm_byte := move_id / 8
  let fm_bit := move_id % 8
  if h : fm_byte < FM_BYTES then
    some ⟨Function.update l.lab_ ⟨fm_byte, h⟩ (l.lab_ ⟨fm_byte, h⟩ ||| (1 <<< fm_bit))⟩
  else none

/-- `cup(other)`: bytewise `|=`. -/
def fm_label.cup (l other : fm_label) : fm_label :=
  ⟨fun i => l.lab_ i ||| other.lab_ i⟩

/-- `intersect(other)`: OR together the bytewise ANDs and test nonzero. -/
def fm_label.intersect (l other : fm_label) : Bool :=
  decide ((List.finRange FM_BYTES).foldl (fun r i => r ||| (l.lab_ i &&& other.lab_ i)) 0 ≠ 0)

/-- Bit view of the 256-bit set: is move `j` present? -/
def fm_label.testMove (l : fm_label) (j : Nat) : Bool :=
  if h : j / 8 < FM_BYTES then (l.lab_ ⟨j / 8, h⟩).testBit (j % 8) else false

/-- All bytes are genuine uint8 values (always true of states the C++ can reach). -/
def fm_label.bounded (l : fm_label) : Prop := ∀ i, l.lab_ i < 256

/-! ### Stage-B callback `on_generate_fn`
(fch_down_dfs_expansion_policy.cpp, lines 174-199.) The bitsets of all nodes are
a map `Nat → fm_label`; `succ_g = none` models a stale search-id (the ternary
yielding `warthog::INF`).  The out-of-bounds `add` propagates as `none`. -/

def on_generate_fn (internal_source_id : Nat) (first_move : Nat → fm_label)
    (succ_id from_id : Nat) (succ_g : Option Nat) (from_g edge_cost edge_id : Nat) :
    Option (Nat → fm_label) :=
  if from_id = internal_source_id then
    match (first_move succ_id).add edge_id with
    | some l => some (Function.update first_move succ_id l)
    | none => none
  else
    let alt_g := from_g + edge_cost
    match succ_g with
    | some g_val =>
      if alt_g < g_val then
        some (Function.update first_move succ_id (first_move from_id))
      else if alt_g = g_val then
        some (Function.update first_move succ_id
          ((first_move succ_id).cup (first_move from_id)))
      else
        some first_move
    | none =>
      -- g_val = warthog::INF: `alt_g < g_val` holds, `alt_g == g_val` cannot
      some (Function.update first_move succ_id (first_move from_id))

/-! ### The rank-biased (down-DFS) expansion policy's `expand`
(fch_down_dfs_expansion_policy.cpp, lines 40-80.)  The graph adapter supplies
per-node outgoing edge lists `(target id, weight)`, already fch-sorted so that
`down_heads id` up-edges form the prefix; `filt` is the label filter member
(its body lives in the policy header, outside src/, so it stays a parameter:
the claim quantifies over its verdicts). -/

def fch_down_loop (filt : Nat → Nat → Bool) (current_id : Nat) :
    List (Nat × Nat) → Nat → List (Nat × Nat)
  | [], _ => []
  | e :: rest, i =>
    if filt current_id i then fch_down_loop filt current_id rest (i + 1)
    else e :: fch_down_loop filt current_id rest (i + 1)

def fch_down_dfs_expand (rank : Nat → Nat) (down_heads : Nat → Nat)
    (adj : Nat → List (Nat × Nat)) (filt : Nat → Nat → Bool)
    (current_id : Nat) (parent : Option Nat) : List (Nat × Nat) :=
  let up_travel : Bool :=
    match parent with
    | none => true
    | some p => decide (rank current_id > rank p)
  if up_travel then adj current_id
  else fch_down_loop filt current_id (List.drop (down_heads current_id) (adj current_id)) 0

/-! ### The best-first search engine
Translated from `flexible_astar::search` (src/search/flexible_astar.h,
lines 222-439).  Missing external collaborators are modelled from the spec:
 - `search_node` (search_node.h is outside src/).  Modelled from the spec:
   per-node record of best g, derived f = g + h, predecessor reference and
   expanded flag; `relax` keeps the h-part of f while lowering g (spec section 3).
 - the priority queue (pqueue.h is outside src/).  Modelled from the spec:
   an opaque min-f container; peek yields a minimum-f element with ties broken
   by insertion order; decrease-key does not change membership (spec 4.1/6).
The single-episode embedding materialises only nodes generated during the
current query, which is exactly the generation-stamp semantics of the spec:
a stale-stamped node is "never seen this episode" and `generate` hands the
engine a reset record. -/

structure search_node where
  g : Nat
  f : Nat
  par : Option Nat
  expanded : Bool
deriving DecidableEq

/-- The expansion policy and graph-adapter capabilities the engine consumes.
`toStart ext = none` models `generate_start_node` returning the null pointer
(the adapter's `to_graph_id` gave `warthog::INF`); likewise `toTarget`.
`succs` may depend on the current node's parent (the fch policies do). -/
structure ExpPolicy where
  toStart : Nat → Option Nat
  toTarget : Nat → Option Nat
  succs : Nat → Option Nat → List (Nat × Nat)
  xy : Nat → Int × Int

/-- Engine knobs: heuristic, optional filter, and the two cutoffs
(`none` = `warthog::INF`, i.e. unlimited). -/
structure EngineCfg where
  hfn : Int → Int → Int → Int → Nat
  ffn : Option (Nat → Bool)
  costCutoff : Option Nat
  expCutoff : Option Nat

/-- Open list plus node pool.  `openList` mirrors `open_` (ids in insertion
order); `nodes` is the per-episode pool, `none` = not generated this episode. -/
structure EngineState where
  nodes : Nat → Option search_node
  openList : List Nat

def emptyEngineState : EngineState := ⟨fun _ => none, []⟩

def nodeF (st : EngineState) (i : Nat) : Nat :=
  match st.nodes i with
  | some n => n.f
  | none => 0

/-- Spec-modelled pqueue peek: first minimum-f element of the open list. -/
def pqPeek (st : EngineState) : Option Nat :=
  st.openList.foldl
    (fun acc i =>
      match acc with
      | none => some i
      | some j => if nodeF st i < nodeF st j then some i else acc)
    none

def markExpanded (nodes : Nat → Option search_node) (i : Nat) :
    Nat → Option search_node :=
  match nodes i with
  | some n => Function.update nodes i (some { n with expanded := true })
  | none => nodes

/-- One successor of the inner `for` loop of `search` (flexible_astar.h,
lines 317-423): skip expanded neighbours; relax open ones on strict
improvement (parent reassigned, f keeps its h-part); otherwise first
sighting: init (g, f, parent), ask the filter, push if admitted.  `cur` is
the record of the node being expanded; it never changes during the loop
because every mutation below touches a non-expanded node. -/
def genSucc (cfg : EngineCfg) (P : ExpPolicy) (gx gy : Int) (current_id : Nat)
    (cur : search_node) (st : EngineState) (sc : Nat × Nat) : EngineState :=
  let nId := sc.1
  let cost := sc.2
  match st.nodes nId with
  | some n =>
    if n.expanded then st
    else if nId ∈ st.openList then
      let gval := cur.g + cost
      if gval < n.g then
        let relaxed : search_node :=
          { g := gval, f := n.f - n.g + gval, par := some current_id, expanded := false }
        { st with nodes := Function.update st.nodes nId (some relaxed) }
      else st
    else
      let gval := cur.g + cost
      let nxy := P.xy nId
      let rec0 : search_node :=
        { g := gval, f := gval + cfg.hfn nxy.1 nxy.2 gx gy,
          par := some current_id, expanded := false }
      let st1 := { st with nodes := Function.update st.nodes nId (some rec0) }
      match cfg.ffn with
      | some fl => if fl nId then st1 else { st1 with openList := st1.openList ++ [nId] }
      | none => { st1 with openList := st1.openList ++ [nId] }
  | none =>
    let gval := cur.g + cost
    let nxy := P.xy nId
    let rec0 : search_node :=
      { g := gval, f := gval + cfg.hfn nxy.1 nxy.2 gx gy,
        par := some current_id, expanded := false }
    let st1 := { st with nodes := Function.update st.nodes nId (some rec0) }
    match cfg.ffn with
    | some fl => if fl nId then st1 else { st1 with openList := st1.openList ++ [nId] }
    | none => { st1 with openList := st1.openList ++ [nId] }

def expandStep (cfg : EngineCfg) (P : ExpPolicy) (gx gy : Int) (current_id : Nat)
    (st : EngineState) : EngineState :=
  match st.nodes current_id with
  | some cur => (P.succs current_id cur.par).foldl (genSucc cfg P gx gy current_id cur) st
  | none => st

/-- How a search episode ended.  `foundTarget`, `frontierExhausted` and
`cutoffHit` are the loop's three exits; `noStart` is the pre-loop
`start_id == INF` return; `fuelOut` marks embedding fuel exhaustion only. -/
inductive StopReason where
  | foundTarget
  | frontierExhausted
  | cutoffHit
  | noStart
  | fuelOut
deriving DecidableEq

/-- The main loop of `search` (flexible_astar.h, lines 271-424): peek; goal
test first; then cost cutoff, then expansion-count cutoff; else pop, mark
expanded, expand.  The returned `Option Nat` is the C++ return value
(`warthog::search_node*` collapsed to the id it points at, `none` = null). -/
def searchLoop (cfg : EngineCfg) (P : ExpPolicy) (targetId : Option Nat)
    (gx gy : Int) : Nat → EngineState → Nat → EngineState × Option Nat × StopReason
  | 0, st, _ => (st, none, .fuelOut)
  | fuel + 1, st, nExp =>
    match pqPeek st with
    | none => (st, none, .frontierExhausted)
    | some topId =>
      if some topId = targetId then (st, some topId, .foundTarget)
      else if (match cfg.costCutoff with
               | some c => decide (nodeF st topId > c)
               | none => false) then (st, none, .cutoffHit)
      else if (match cfg.expCutoff with
               | some c => decide (nExp ≥ c)
               | none => false) then (st, none, .cutoffHit)
      else
        let st1 : EngineState :=
          { nodes := markExpanded st.nodes topId, openList := st.openList.erase topId }
        let st2 := expandStep cfg P gx gy topId st1
        searchLoop cfg P targetId gx gy fuel st2 (nExp + 1)

/-- `flexible_astar::search` including the generation phase (lines 240-269).
`startExt = none` models an instance whose start id is `warthog::INF`
(immediate `return 0`); a failed `generate_start_node` / `generate_target_node`
(null pointer) is dereferenced by the C++ (`start->get_id()`), embedded as
`.error ()`. -/
def runSearch (cfg : EngineCfg) (P : ExpPolicy) (startExt targetExt : Option Nat)
    (fuel : Nat) : Except Unit (EngineState × Option Nat × StopReason) :=
  match startExt with
  | none => .ok (emptyEngineState, none, .noStart)
  | some sExt =>
    match P.toStart sExt with
    | none => .error ()
    | some sId =>
      let tRes : Except Unit (Option Nat) :=
        match targetExt with
        | none => .ok none
        | some tExt =>
          match P.toTarget tExt with
          | none => .error ()
          | some tId => .ok (some tId)
      match tRes with
      | .error e => .error e
      | .ok targetId =>
        let sxy := P.xy sId
        let gxy := match targetId with
                   | some t => P.xy t
                   | none => ((0 : Int), (0 : Int))
        let start : search_node :=
          { g := 0, f := cfg.hfn sxy.1 sxy.2 gxy.1 gxy.2, par := none, expanded := false }
        let st0 : EngineState :=
          { nodes := Function.update (fun _ => none) sId (some start), openList := [sId] }
        .ok (searchLoop cfg P targetId gxy.1 gxy.2 fuel st0 0)

/-- The engine's return value (the `search_node*`, null = `none`); a faulting
run has no return value. -/
def resultVal (r : Except Unit (EngineState × Option Nat × StopReason)) : Option Nat :=
  match r with
  | .ok (_, v, _) => v
  | .error _ => none

/-- Which exit the episode took (ghost observation; `none` for a fault). -/
def resultReason (r : Except Unit (EngineState × Option Nat × StopReason)) :
    Option StopReason :=
  match r with
  | .ok (_, _, rs) => some rs
  | .error _ => none

/-- Final node-pool state of a run (empty for a fault). -/
def resultState (r : Except Unit (EngineState × Option Nat × StopReason)) : EngineState :=
  match r with
  | .ok (st, _, _) => st
  | .error _ => emptyEngineState

/-! ### Parent-tree predicates for claim C9. -/

/-- `a`'s record names `b` as its best-known predecessor. -/
def parentRel (st : EngineState) (a b : Nat) : Prop :=
  ∃ ra, st.nodes a = some ra ∧ ra.par = some b

/-- Every assigned parent is an already-expanded node whose (frozen) g-cost is
no greater than the g-cost its child currently holds. -/
def ParentInv (st : EngineState) : Prop :=
  ∀ a b ra, st.nodes a = some ra → ra.par = some b →
    ∃ rb, st.nodes b = some rb ∧ rb.expanded = true ∧ rb.g ≤ ra.g

/-- The parent references contain no cycle. -/
def AcyclicParents (st : EngineState) : Prop :=
  ∀ n, ¬ Relation.TransGen (parentRel st) n n

/-- Internal strengthening: some rank function strictly decreases along parent
references (witnesses acyclicity through every intermediate state). -/
def MeasuredParents (st : EngineState) : Prop :=
  ∃ ord : Nat → Nat, ∀ a b, parentRel st a b → ord b < ord a

def EngineInv (st : EngineState) : Prop := ParentInv st ∧ MeasuredParents st

/-! ### DFS-interval labels
The label record itself (`down_dfs_label`, in down_dfs_labelling.h) is outside
src/.  Modelled from the spec: a DFS-interval label is a tuple of a contiguous
interval over DFS-postorder ids, a contiguous interval over rank, an
axis-aligned bounding box over coordinates and a bit-vector over partition
ids; merging is interval union / bbox union / bit-OR, growing inserts one
point (spec section 3); a fresh label is empty, using the int32 sentinels the
source compares against. -/

def INT32_MAX : Int := 2147483647
def INT32_MIN : Int := -2147483648

structure Interval where
  lo : Int
  hi : Int
deriving DecidableEq

def Interval.emptyIv : Interval := ⟨INT32_MAX, INT32_MIN⟩

def Interval.grow (iv : Interval) (x : Int) : Interval := ⟨min iv.lo x, max iv.hi x⟩

def Interval.merge (a b : Interval) : Interval := ⟨min a.lo b.lo, max a.hi b.hi⟩

def Interval.containsI (iv : Interval) (x : Int) : Bool := decide (iv.lo ≤ x ∧ x ≤ iv.hi)

structure Rect where
  x1 : Int
  y1 : Int
  x2 : Int
  y2 : Int
deriving DecidableEq

def Rect.emptyR : Rect := ⟨INT32_MAX, INT32_MAX, INT32_MIN, INT32_MIN⟩

def Rect.grow (r : Rect) (x y : Int) : Rect :=
  ⟨min r.x1 x, min r.y1 y, max r.x2 x, max r.y2 y⟩

def Rect.merge (a b : Rect) : Rect :=
  ⟨min a.x1 b.x1, min a.y1 b.y1, max a.x2 b.x2, max a.y2 b.y2⟩

def Rect.containsR (r : Rect) (x y : Int) : Bool :=
  decide (r.x1 ≤ x ∧ x ≤ r.x2 ∧ r.y1 ≤ y ∧ y ≤ r.y2)

structure down_dfs_label where
  ids_ : Interval
  rank_ : Interval
  bbox_ : Rect
  flags_ : Nat
deriving DecidableEq

def down_dfs_label.emptyLabel : down_dfs_label :=
  ⟨Interval.emptyIv, Interval.emptyIv, Rect.emptyR, 0⟩

def down_dfs_label.merge (a b : down_dfs_label) : down_dfs_label :=
  ⟨a.ids_.merge b.ids_, a.rank_.merge b.rank_, a.bbox_.merge b.bbox_, a.flags_ ||| b.flags_⟩

/-- Membership of one (postorder id, rank, coordinate, partition) tuple. -/
def down_dfs_label.containsTuple (l : down_dfs_label) (i r x y : Int) (p : Nat) : Bool :=
  l.ids_.containsI i && l.rank_.containsI r && l.bbox_.containsR x y && l.flags_.testBit p

/-- The graph-plus-metadata consumed by the label builder: per-node outgoing
edges `(target id, weight)`, the contraction rank, coordinates and the
partition id of each node. -/
structure LabGraph where
  numNodes : Nat
  adj : Nat → List (Nat × Nat)
  rank : Nat → Nat
  xy : Nat → Int × Int
  part : Nat → Nat

/-- int32 view of a `dfs_order_` cell (`none` embeds the INT32_MAX sentinel the
source initialises the vector with). -/
def dfsOrderVal (d : Option Nat) : Int :=
  match d with
  | some v => (v : Int)
  | none => INT32_MAX

/-- The label builder's mutable state (down_dfs_labelling.cpp):
`dfs_order_`, the per-node accumulators `node_labels`, the per-edge labels
`lab_`, the running postorder counter and the Stage-D `up_apex` memo. -/
structure DLState where
  dfs_order : Nat → Option Nat
  node_labels : Nat → down_dfs_label
  lab : Nat → Nat → down_dfs_label
  dfs_id : Nat
  up_apex : Nat → Option Nat

def initDLState : DLState :=
  { dfs_order := fun _ => none
    node_labels := fun _ => down_dfs_label.emptyLabel
    lab := fun _ _ => down_dfs_label.emptyLabel
    dfs_id := 0
    up_apex := fun _ => none }

def labWrite (lab : Nat → Nat → down_dfs_label) (i j : Nat) (v : down_dfs_label) :
    Nat → Nat → down_dfs_label :=
  Function.update lab i (Function.update (lab i) j v)

/-! Stage C: `label_fn` (down_dfs_labelling.cpp lines 64-110), a DFS over
down-edges from the apex.  The C++ recursion is embedded with fuel;
`label_edges` is its edge loop (`it - begin` becomes the index counter). -/

def label_edges (G : LabGraph) (rec : Nat → DLState → DLState) (source_id : Nat) :
    List (Nat × Nat) → Nat → DLState → DLState
  | [], _, st => st
  | e :: rest, idx, st =>
    if G.rank e.1 > G.rank source_id then
      label_edges G rec source_id rest (idx + 1) st
    else
      let st1 := if (st.dfs_order e.1).isNone then rec e.1 st else st
      let st2 :=
        { st1 with
          lab := labWrite st1.lab source_id idx (st1.node_labels e.1)
          node_labels := Function.update st1.node_labels source_id
            ((st1.node_labels source_id).merge (st1.node_labels e.1)) }
      label_edges G rec source_id rest (idx + 1) st2

def label_fn (G : LabGraph) : Nat → Nat → DLState → DLState
  | 0, _, st => st
  | fuel + 1, source_id, st =>
    let st1 := label_edges G (label_fn G fuel) source_id (G.adj source_id) 0 st
    let st2 :=
      if (st1.dfs_order source_id).isNone then
        { st1 with dfs_order := Function.update st1.dfs_order source_id (some st1.dfs_id)
                   dfs_id := st1.dfs_id + 1 }
      else st1
    let sl := st2.node_labels source_id
    let sxy := G.xy source_id
    let sl2 : down_dfs_label :=
      { ids_ := sl.ids_.grow (dfsOrderVal (st2.dfs_order source_id))
        rank_ := sl.rank_.grow (G.rank source_id)
        bbox_ := sl.bbox_.grow sxy.1 sxy.2
        flags_ := sl.flags_ ||| (1 <<< (G.part source_id)) }
    { st2 with node_labels := Function.update st2.node_labels source_id sl2 }

/-! Stage D: `up_label_fn` (down_dfs_labelling.cpp lines 113-154).
First loop (`up_apex_edges`): DFS over up-edges computing the up-closure apex;
second loop (`up_merge_edges`): merge `node_labels[apex]` into every up-edge's
label.  The `.getD e.1` default is reachable only on embedding fuel
exhaustion (the C++ recursion always completes or overflows the stack). -/

def up_merge_edges (G : LabGraph) (source_id apex_id : Nat) :
    List (Nat × Nat) → Nat → DLState → DLState
  | [], _, st => st
  | e :: rest, idx, st =>
    if G.rank e.1 < G.rank source_id then
      up_merge_edges G source_id apex_id rest (idx + 1) st
    else
      let merged := (st.lab source_id idx).merge (st.node_labels apex_id)
      up_merge_edges G source_id apex_id rest (idx + 1)
        { st with lab := labWrite st.lab source_id idx merged }

def up_apex_edges (G : LabGraph) (rec : Nat → DLState → DLState) (source_id : Nat) :
    List (Nat × Nat) → DLState → Nat → DLState × Nat
  | [], st, apex => (st, apex)
  | e :: rest, st, apex =>
    if G.rank e.1 < G.rank source_id then
      up_apex_edges G rec source_id rest st apex
    else
      let st1 := if (st.up_apex e.1).isNone then rec e.1 st else st
      let succ_apex := (st1.up_apex e.1).getD e.1
      let apex2 := if G.rank succ_apex > G.rank apex then succ_apex else apex
      up_apex_edges G rec source_id rest st1 apex2

def up_label_fn (G : LabGraph) : Nat → Nat → DLState → DLState
  | 0, _, st => st
  | fuel + 1, source_id, st =>
    let r := up_apex_edges G (up_label_fn G fuel) source_id (G.adj source_id) st source_id
    let st2 := { r.1 with up_apex := Function.update r.1.up_apex source_id (some r.2) }
    up_merge_edges G source_id r.2 (G.adj source_id) 0 st2

/-- Stage A apex scan (down_dfs_labelling.cpp lines 43-48): first maximum-rank
node in a single linear scan. -/
def find_apex (G : LabGraph) : Nat :=
  (List.range G.numNodes).foldl (fun apex i => if G.rank i > G.rank apex then i else apex) 0

/-- `down_dfs_labelling::compute_labels` (lines 34-160): Stage C from the apex,
then Stage D driven over every node. -/
def compute_labels (G : LabGraph) (fuel : Nat) : DLState :=
  let st1 := label_fn G fuel (find_apex G) initDLState
  (List.range G.numNodes).foldl (fun st n => up_label_fn G fuel n st) st1

/-! ### Stage E: `improve_labels` (down_dfs_labelling.cpp lines 163-277).
The two hook callbacks are translated from the source; the Dijkstra host that
fires them uses `fch_expansion_policy` and an engine revision with
`apply_on_generate` / `apply_on_expand`, neither of which is under src/. -/

/-- Stage E `on_generate_fn` (lines 193-221): scalar first-edge-index map.
`fromOpt = none` is the null `from` of the start node; `succ_g = none` is the
stale-search-id ternary yielding `warthog::INF`. -/
def improve_on_generate_fn (source_id : Nat) (first_move : Nat → Nat)
    (fromOpt : Option (Nat × Nat)) (succ_id : Nat) (succ_g : Option Nat)
    (edge_cost edge_id : Nat) : Nat → Nat :=
  match fromOpt with
  | none => first_move
  | some fr =>
    if fr.1 = source_id then Function.update first_move succ_id edge_id
    else
      let alt_g := fr.2 + edge_cost
      match succ_g with
      | some g_val =>
        if alt_g < g_val then Function.update first_move succ_id (first_move fr.1)
        else first_move
      | none => Function.update first_move succ_id (first_move fr.1)

/-- Stage E `on_expand_fn` (lines 224-245): grow the label of the source's
edge `first_move[node]` by the expanded node's attributes. -/
def improve_on_expand_fn (G : LabGraph) (source_id : Nat) (first_move : Nat → Nat)
    (dfs_order : Nat → Option Nat) (lab : Nat → Nat → down_dfs_label)
    (node_id : Nat) : Nat → Nat → down_dfs_label :=
  if node_id = source_id then lab
  else
    let edge_idx := first_move node_id
    let sl := lab source_id edge_idx
    let nxy := G.xy node_id
    let sl2 : down_dfs_label :=
      { ids_ := sl.ids_.grow (dfsOrderVal (dfs_order node_id))
        rank_ := sl.rank_.grow (G.rank node_id)
        bbox_ := sl.bbox_.grow nxy.1 nxy.2
        flags_ := sl.flags_ ||| (1 <<< (G.part node_id)) }
    labWrite lab source_id edge_idx sl2

/-- Dijkstra state for one Stage-E source: tentative distances, closed set,
open list (insertion order), the scalar first-move map and the labels being
grown. -/
structure BDState where
  dist : Nat → Option Nat
  closed : Nat → Bool
  openL : List Nat
  fm : Nat → Nat
  labs : Nat → Nat → down_dfs_label

/-- Modelled from the spec: the builder re-enters the generic engine as a
plain Dijkstra (zero heuristic, no target) and harvests tie information via
the relax / no-relax hooks (spec 4.1, 4.3 Stage E); the hook host itself is
outside src/.  The callback fires for every candidate successor that is not
yet expanded (relax events: first generation or strict improvement; no-relax
events: candidate to an already-open node), reading the successor's
pre-update g. -/
def bdPeek (st : BDState) : Option Nat :=
  st.openL.foldl
    (fun acc i =>
      match acc with
      | none => some i
      | some j => if (st.dist i).getD 0 < (st.dist j).getD 0 then some i else acc)
    none

def bdSuccStep (source_id current : Nat) (gc : Nat) (st : BDState)
    (p : Nat × Nat × Nat) : BDState :=
  let idx := p.1
  let tgt := p.2.1
  let wt := p.2.2
  if st.closed tgt then st
  else
    let fm2 := improve_on_generate_fn source_id st.fm (some (current, gc)) tgt
      (st.dist tgt) wt idx
    let st1 := { st with fm := fm2 }
    match st.dist tgt with
    | none =>
      { st1 with dist := Function.update st1.dist tgt (some (gc + wt))
                 openL := st1.openL ++ [tgt] }
    | some d =>
      if gc + wt < d then { st1 with dist := Function.update st1.dist tgt (some (gc + wt)) }
      else st1

def bdLoop (G : LabGraph) (dfs_order : Nat → Option Nat) (source_id : Nat) :
    Nat → BDState → BDState
  | 0, st => st
  | fuel + 1, st =>
    match bdPeek st with
    | none => st
    | some cur =>
      let gc := (st.dist cur).getD 0
      let st1 := { st with closed := Function.update st.closed cur true
                           openL := st.openL.erase cur }
      let st2 := { st1 with
        labs := improve_on_expand_fn G source_id st1.fm dfs_order st1.labs cur }
      let st3 := (G.adj cur).enum.foldl (bdSuccStep source_id cur gc) st2
      bdLoop G dfs_order source_id fuel st3

def bdInit (labs : Nat → Nat → down_dfs_label) (s : Nat) : BDState :=
  { dist := Function.update (fun _ => none) s (some 0)
    closed := fun _ => false
    openL := [s]
    fm := fun _ => 0
    labs := labs }

/-- The reset loop of `improve_labels` (lines 176-184): every edge label of a
selected source is overwritten with a freshly constructed (empty) label. -/
def reset_row (G : LabGraph) (i : Nat) (lab : Nat → Nat → down_dfs_label) :
    Nat → Nat → down_dfs_label :=
  (List.range (G.adj i).length).foldl
    (fun l idx => labWrite l i idx down_dfs_label.emptyLabel) lab

/-- `down_dfs_labelling::improve_labels` (lines 163-277): select sources with
out-degree at least 100, reset their edge labels, then rebuild them
empirically with one Dijkstra per source. -/
def improve_sources (G : LabGraph) : List Nat :=
  (List.range G.numNodes).filter (fun i => decide ((G.adj i).length ≥ 100))

def improve_reset (G : LabGraph) (lab : Nat → Nat → down_dfs_label) :
    Nat → Nat → down_dfs_label :=
  (improve_sources G).foldl (fun l i => reset_row G i l) lab

def improve_labels (G : LabGraph) (fuel : Nat) (st : DLState) : DLState :=
  let lab1 := improve_reset G st.lab
  let labF := (improve_sources G).foldl
    (fun l s => (bdLoop G st.dfs_order s fuel (bdInit l s)).labs) lab1
  { st with lab := labF }

/-! ### Concrete fixtures used by counterexamples and witnesses. -/

/-- Hierarchy with two distinct local up-apexes above node 2: node 2 (rank 2)
has up-edges to node 3 (whose up-closure tops out at node 5, rank 5) and to
node 4 (whose up-closure reaches the global apex 6, rank 6); node 6's only
down-edge reaches node 1.  Ranks equal ids. -/
def G3 : LabGraph :=
  { numNodes := 7
    adj := fun i =>
      if i = 2 then [(3, 1), (4, 1)]
      else if i = 3 then [(5, 1)]
      else if i = 4 then [(6, 1)]
      else if i = 5 then [(0, 1)]
      else if i = 6 then [(1, 1)]
      else []
    rank := fun i => i
    xy := fun _ => (0, 0)
    part := fun _ => 0 }

/-- A memo-complete Stage-D state for `G3`'s node 2: both up-successors
already carry their up-closure apexes. -/
def stW : DLState :=
  { initDLState with
      up_apex := fun n => if n = 3 then some 5 else if n = 4 then some 6 else none }

/-- Stage-E fixture: node 0 (rank 100, the apex) has out-degree 100 — one
edge of weight 10 to node 1 (rank 50) and 99 parallel edges of weight 1 to
node 2 (rank 40); nodes 1 and 2 both reach node 3 (rank 1) at cost 1. The
shortest path to node 3 runs through node 2, so the empirical rebuild of the
label of edge (0,1) sees node 1 only, while the structural label of that edge
also covers node 3. -/
def G7 : LabGraph :=
  { numNodes := 4
    adj := fun i =>
      if i = 0 then (1, 10) :: List.replicate 99 (2, 1)
      else if i = 1 then [(3, 1)]
      else if i = 2 then [(3, 1)]
      else []
    rank := fun i => if i = 0 then 100 else if i = 1 then 50 else if i = 2 then 40 else 1
    xy := fun _ => (0, 0)
    part := fun _ => 0 }

/-- Two-node policy: a single edge 0 → 1 of weight 0; external ids 0 and 1
map to themselves, everything else is unmapped. -/
def zeroEdgePolicy : ExpPolicy :=
  { toStart := fun e => if e < 2 then some e else none
    toTarget := fun e => if e < 2 then some e else none
    succs := fun i _ => if i = 0 then [(1, 0)] else []
    xy := fun _ => (0, 0) }

/-- A policy whose graph adapter has no internal mapping for any external id. -/
def unmappedStartPolicy : ExpPolicy :=
  { toStart := fun _ => none
    toTarget := fun _ => none
    succs := fun _ _ => []
    xy := fun _ => (0, 0) }

/-- Mapped start, unmapped target. -/
def unmappedTargetPolicy : ExpPolicy :=
  { toStart := fun e => some e
    toTarget := fun _ => none
    succs := fun _ _ => []
    xy := fun _ => (0, 0) }

/-- Zero heuristic, no filter, unlimited budget. -/
def plainCfg : EngineCfg :=
  { hfn := fun _ _ _ _ => 0, ffn := none, costCutoff := none, expCutoff := none }

/-- Same with the expansion-count cutoff set to 0. -/
def cutoff0Cfg : EngineCfg := { plainCfg with expCutoff := some 0 }

/-- `a < b` where `b` may carry the `warthog::INF` sentinel (`none`). -/
def optLt (a : Nat) (b : Option Nat) : Prop :=
  match b with
  | some v => a < v
  | none => True

/-- `a > b` against the same sentinel (never greater than INF). -/
def optGtVal (a : Nat) (b : Option Nat) : Prop :=
  match b with
  | some v => v < a
  | none => False

/-! ## Theorems -/

/-! ### Bit-level facts about `fm_label` (claims C10 and C2). -/

lemma lor_eq_zero (a b : Nat) : a ||| b = 0 ↔ a = 0 ∧ b = 0 := by
  constructor
  · intro h
    constructor
    · apply Nat.zero_of_testBit_eq_false
      intro i
      have hcongr := congrArg (fun x => Nat.testBit x i) h
      simp [Nat.testBit_lor] at hcongr
      exact hcongr.1
    · apply Nat.zero_of_testBit_eq_false
      intro i
      have hcongr := congrArg (fun x => Nat.testBit x i) h
      simp [Nat.testBit_lor] at hcongr
      exact hcongr.2
  · rintro ⟨rfl, rfl⟩
    rfl

lemma nat_ne_zero_iff_bit (n : Nat) : n ≠ 0 ↔ ∃ i, n.testBit i = true := by
  constructor
  · intro h
    by_contra hc
    push_neg at hc
    exact h (Nat.zero_of_testBit_eq_false (by intro i; have := hc i; simpa using this))
  · rintro ⟨i, hi⟩ rfl
    simp [Nat.zero_testBit] at hi

lemma fm_add_bits (l : fm_label) (m : Nat) (hm : m < 256) :
    ∃ l', l.add m = some l' ∧ ∀ j, l'.testMove j = (l.testMove j || decide (j = m)) := by
  have hb : m / 8 < FM_BYTES := by
    show m / 8 < 32
    omega
  refine ⟨⟨Function.update l.lab_ ⟨m / 8, hb⟩ (l.lab_ ⟨m / 8, hb⟩ ||| (1 <<< (m % 8)))⟩,
    ?_, ?_⟩
  · simp [fm_label.add, hb]
  · intro j
    unfold fm_label.testMove
    by_cases hj : j / 8 < FM_BYTES
    · rw [dif_pos hj, dif_pos hj]
      dsimp only
      by_cases hbyte : j / 8 = m / 8
      · rw [show (⟨j / 8, hj⟩ : Fin FM_BYTES) = ⟨m / 8, hb⟩ from Fin.ext hbyte]
        rw [Function.update_same]
        rw [Nat.testBit_lor]
        rw [Nat.shiftLeft_eq, one_mul]
        by_cases hbit : j % 8 = m % 8
        · have hjm : j = m := by omega
          subst hjm
          simp [Nat.testBit_two_pow_self]
        · have hjm : j ≠ m := by omega
          rw [Nat.testBit_two_pow_of_ne (by omega : m % 8 ≠ j % 8)]
          simp [hjm]
      · rw [Function.update_noteq (by simpa [Fin.ext_iff] using hbyte)]
        have hjm : j ≠ m := by omega
        simp [hjm]
    · rw [dif_neg hj, dif_neg hj]
      have hx : ¬ (j / 8 < 32) := hj
      have hjm : j ≠ m := by omega
      simp [hjm]

lemma fm_add_oob (l : fm_label) (m : Nat) (hm : 256 ≤ m) : l.add m = none := by
  have hb : ¬ (m / 8 < FM_BYTES) := by
    show ¬ (m / 8 < 32)
    omega
  simp [fm_label.add, hb]

lemma fm_cup_bits (l o : fm_label) (j : Nat) :
    (l.cup o).testMove j = (l.testMove j || o.testMove j) := by
  unfold fm_label.testMove fm_label.cup
  by_cases hj : j / 8 < FM_BYTES
  · rw [dif_pos hj, dif_pos hj, dif_pos hj]
    exact Nat.testBit_lor _ _ _
  · rw [dif_neg hj, dif_neg hj, dif_neg hj]
    rfl

lemma foldl_lor_eq_zero (f : Fin FM_BYTES → Nat) :
    ∀ (L : List (Fin FM_BYTES)) (a : Nat),
      (L.foldl (fun r i => r ||| f i) a = 0 ↔ (a = 0 ∧ ∀ i ∈ L, f i = 0)) := by
  intro L
  induction L with
  | nil => intro a; simp
  | cons x xs ih =>
    intro a
    simp only [List.foldl_cons, List.mem_cons]
    rw [ih, lor_eq_zero]
    constructor
    · rintro ⟨⟨h1, h2⟩, h3⟩
      exact ⟨h1, fun i hi => hi.elim (fun he => he ▸ h2) (h3 i)⟩
    · rintro ⟨h1, h2⟩
      exact ⟨⟨h1, h2 x (Or.inl rfl)⟩, fun i hi => h2 i (Or.inr hi)⟩

lemma testBit_false_of_byte (x b : Nat) (hx : x < 256) (hb : 8 ≤ b) :
    x.testBit b = false := by
  apply Nat.testBit_eq_false_of_lt
  calc x < 256 := hx
    _ = 2 ^ 8 := rfl
    _ ≤ 2 ^ b := Nat.pow_le_pow_right (by norm_num) hb

lemma fm_intersect_iff (l o : fm_label) (hl : l.bounded) (ho : o.bounded) :
    (l.intersect o = true ↔ ∃ j, j < 256 ∧ l.testMove j = true ∧ o.testMove j = true) := by
  unfold fm_label.intersect
  rw [decide_eq_true_eq]
  rw [Ne, foldl_lor_eq_zero]
  constructor
  · intro h
    rcases not_and_or.mp h with h0 | hex
    · exact absurd rfl h0
    · push_neg at hex
      obtain ⟨i, _, hne⟩ := hex
      obtain ⟨b, hbit⟩ := (nat_ne_zero_iff_bit _).mp hne
      rw [Nat.testBit_land] at hbit
      have hlb := (Bool.and_eq_true _ _).mp hbit
      have hblt : b < 8 := by
        by_contra hb8
        push_neg at hb8
        rw [testBit_false_of_byte _ b (hl i) hb8] at hlb
        exact Bool.false_ne_true hlb.1
      have hi32 : i.val < 32 := i.isLt
      refine ⟨8 * i.val + b, by omega, ?_, ?_⟩
      · unfold fm_label.testMove
        have hdiv : (8 * i.val + b) / 8 < FM_BYTES := by
          have := i.isLt
          unfold FM_BYTES at this ⊢
          omega
        rw [dif_pos hdiv]
        rw [show (⟨(8 * i.val + b) / 8, hdiv⟩ : Fin FM_BYTES) = i from
          Fin.ext (by simp; omega)]
        rw [show (8 * i.val + b) % 8 = b by omega]
        exact hlb.1
      · unfold fm_label.testMove
        have hdiv : (8 * i.val + b) / 8 < FM_BYTES := by
          have := i.isLt
          unfold FM_BYTES at this ⊢
          omega
        rw [dif_pos hdiv]
        rw [show (⟨(8 * i.val + b) / 8, hdiv⟩ : Fin FM_BYTES) = i from
          Fin.ext (by simp; omega)]
        rw [show (8 * i.val + b) % 8 = b by omega]
        exact hlb.2
  · rintro ⟨j, hj, hlj, hoj⟩
    intro hc
    have hdiv : j / 8 < FM_BYTES := by
      show j / 8 < 32
      omega
    have hz := hc.2 ⟨j / 8, hdiv⟩ (List.mem_finRange _)
    unfold fm_label.testMove at hlj hoj
    rw [dif_pos hdiv] at hlj hoj
    have : (l.lab_ ⟨j / 8, hdiv⟩ &&& o.lab_ ⟨j / 8, hdiv⟩).testBit (j % 8) = true := by
      rw [Nat.testBit_land, hlj, hoj]
      rfl
    rw [hz] at this
    simp [Nat.zero_testBit] at this

/-- Claim C10: the first-move bitset has a fixed capacity of 32 bytes
(256 bits).  For `move_id < 256`, `add` stays within the array and sets
exactly bit `move_id`, leaving all other bits unchanged; `cup` computes the
bitwise union and `intersect` decides non-empty intersection over those 256
bits; for `move_id ≥ 256` the write indexes past the array (embedded as
`none`), so the computation is well-defined only when every edge index — in
particular every index below the apex's out-degree — stays at most 256. -/
theorem C10_fm_label_capacity :
    (∀ l : fm_label, ∀ m, m < 256 → ∃ l', l.add m = some l' ∧
        ∀ j, l'.testMove j = (l.testMove j || decide (j = m))) ∧
    (∀ l : fm_label, ∀ m, 256 ≤ m → l.add m = none) ∧
    (∀ l o : fm_label, ∀ j, (l.cup o).testMove j = (l.testMove j || o.testMove j)) ∧
    (∀ l o : fm_label, l.bounded → o.bounded →
      (l.intersect o = true ↔ ∃ j, j < 256 ∧ l.testMove j = true ∧ o.testMove j = true)) :=
  ⟨fm_add_bits, fm_add_oob, fm_cup_bits, fm_intersect_iff⟩

theorem C10_fm_label_capacity_witness :
    (∃ l', fm_label.initLabel.add 200 = some l' ∧
        ∀ j, l'.testMove j = (fm_label.initLabel.testMove j || decide (j = 200))) ∧
    fm_label.initLabel.add 256 = none ∧
    (fm_label.initLabel.intersect fm_label.initLabel = true ↔
      ∃ j, j < 256 ∧ fm_label.initLabel.testMove j = true ∧
        fm_label.initLabel.testMove j = true) :=
  ⟨C10_fm_label_capacity.1 fm_label.initLabel 200 (by norm_num),
   C10_fm_label_capacity.2.1 fm_label.initLabel 256 (by norm_num),
   C10_fm_label_capacity.2.2.2 fm_label.initLabel fm_label.initLabel
     (fun i => by simp [fm_label.initLabel]) (fun i => by simp [fm_label.initLabel])⟩

/-- Claim C2: during Stage B, a first-move bitset is mutated only by the
`on_generate_fn` callback, and only as follows — when the predecessor is the
apex, the successor's originating edge bit is set (all other bits kept); when
the predecessor is any other node, a strictly cost-improving relaxation
replaces the successor's bitset with the predecessor's, an exactly-equal-cost
relaxation unions the predecessor's bitset in, and a non-improving candidate
leaves it untouched; no other node's bitset changes. -/
theorem C2_first_move_mutation (src : Nat) (fm : Nat → fm_label)
    (succ_id from_id : Nat) (succ_g : Option Nat) (from_g edge_cost edge_id : Nat)
    (hedge : edge_id < 256) :
    ∃ fm2, on_generate_fn src fm succ_id from_id succ_g from_g edge_cost edge_id = some fm2 ∧
      (∀ x, x ≠ succ_id → fm2 x = fm x) ∧
      (from_id = src →
        ∀ j, (fm2 succ_id).testMove j = ((fm succ_id).testMove j || decide (j = edge_id))) ∧
      (from_id ≠ src → optLt (from_g + edge_cost) succ_g → fm2 succ_id = fm from_id) ∧
      (from_id ≠ src → succ_g = some (from_g + edge_cost) →
        fm2 succ_id = (fm succ_id).cup (fm from_id)) ∧
      (from_id ≠ src → optGtVal (from_g + edge_cost) succ_g → fm2 succ_id = fm succ_id) := by
  unfold on_generate_fn
  by_cases hf : from_id = src
  · obtain ⟨l', hadd, hbits⟩ := fm_add_bits (fm succ_id) edge_id hedge
    rw [if_pos hf, hadd]
    refine ⟨_, rfl, ?_, ?_, ?_, ?_, ?_⟩
    · intro x hx
      exact Function.update_noteq hx _ _
    · intro _ j
      rw [Function.update_same]
      exact hbits j
    · intro h; exact absurd hf h
    · intro h; exact absurd hf h
    · intro h; exact absurd hf h
  · rw [if_neg hf]
    cases hg : succ_g with
    | none =>
      refine ⟨_, rfl, ?_, ?_, ?_, ?_, ?_⟩
      · intro x hx
        exact Function.update_noteq hx _ _
      · intro h; exact absurd h hf
      · intro _ _
        exact Function.update_same _ _ _
      · intro _ h
        exact absurd h (by simp)
      · intro _ h
        exact (show False from h).elim
    | some gv =>
      dsimp only
      by_cases hlt : from_g + edge_cost < gv
      · rw [if_pos hlt]
        refine ⟨_, rfl, ?_, ?_, ?_, ?_, ?_⟩
        · intro x hx
          exact Function.update_noteq hx _ _
        · intro h; exact absurd h hf
        · intro _ _
          exact Function.update_same _ _ _
        · intro _ h
          have h1 : some gv = some (from_g + edge_cost) := h
          have h2 : gv = from_g + edge_cost := Option.some.inj h1
          omega
        · intro _ h
          have h2 : gv < from_g + edge_cost := h
          omega
      · by_cases heq : from_g + edge_cost = gv
        · rw [if_neg hlt, if_pos heq]
          refine ⟨_, rfl, ?_, ?_, ?_, ?_, ?_⟩
          · intro x hx
            exact Function.update_noteq hx _ _
          · intro h; exact absurd h hf
          · intro _ h
            have h2 : from_g + edge_cost < gv := h
            omega
          · intro _ _
            exact Function.update_same _ _ _
          · intro _ h
            have h2 : gv < from_g + edge_cost := h
            omega
        · rw [if_neg hlt, if_neg heq]
          refine ⟨fm, rfl, fun _ _ => rfl, ?_, ?_, ?_, fun _ _ => rfl⟩
          · intro h; exact absurd h hf
          · intro _ h
            have h2 : from_g + edge_cost < gv := h
            omega
          · intro _ h
            have h2 : gv = from_g + edge_cost := Option.some.inj h
            omega

theorem C2_first_move_mutation_witness :
    ∃ fm2, on_generate_fn 0 (fun _ => fm_label.initLabel) 1 0 none 0 0 3 = some fm2 :=
  (C2_first_move_mutation 0 (fun _ => fm_label.initLabel) 1 0 none 0 0 3
    (by norm_num)).elim (fun fm2 h => ⟨fm2, h.1⟩)

/-! ### The rank-biased expansion step (claim C1). -/

lemma fch_down_loop_eq (filt : Nat → Nat → Bool) (cid : Nat) :
    ∀ (l : List (Nat × Nat)) (i : Nat),
      fch_down_loop filt cid l i =
        (l.enumFrom i).filterMap (fun pr => if filt cid pr.1 then none else some pr.2) := by
  intro l
  induction l with
  | nil => intro i; rfl
  | cons e rest ih =>
    intro i
    show (if filt cid i then fch_down_loop filt cid rest (i + 1)
          else e :: fch_down_loop filt cid rest (i + 1)) = _
    rw [show (e :: rest).enumFrom i = (i, e) :: rest.enumFrom (i + 1) from rfl]
    rw [List.filterMap_cons]
    by_cases hfil : filt cid i
    · simp [hfil, ih]
    · simp [hfil, ih]

/-- Claim C1: the rank-biased policy classifies an expansion as traveling up
exactly when the node has no parent or out-ranks its parent; traveling-up
expansions enumerate the entire adjacency, while traveling-down expansions
enumerate only the down-suffix (the edges from the up/down split index on)
and omit each down-edge whose (node, down-edge-index) pair the label filter
rejects. -/
theorem C1_expand_enumeration (rank down_heads : Nat → Nat)
    (adj : Nat → List (Nat × Nat)) (filt : Nat → Nat → Bool)
    (cid : Nat) (parent : Option Nat) :
    (parent = none ∨ (∃ p, parent = some p ∧ rank p < rank cid) →
      fch_down_dfs_expand rank down_heads adj filt cid parent = adj cid) ∧
    (∀ p, parent = some p → rank cid ≤ rank p →
      fch_down_dfs_expand rank down_heads adj filt cid parent =
        ((List.drop (down_heads cid) (adj cid)).enum.filterMap
          (fun pr => if filt cid pr.1 then none else some pr.2))) := by
  constructor
  · intro h
    rcases h with rfl | ⟨p, rfl, hp⟩
    · rfl
    · unfold fch_down_dfs_expand
      dsimp only
      rw [if_pos]
      exact decide_eq_true_eq.mpr hp
  · intro p hp hle
    subst hp
    unfold fch_down_dfs_expand
    dsimp only
    rw [if_neg (by simpa using Nat.not_lt.mpr hle)]
    rw [fch_down_loop_eq]
    rfl

theorem C1_expand_enumeration_witness :
    fch_down_dfs_expand (fun i => i) (fun _ => 1)
      (fun _ => [(9, 4), (5, 6), (3, 7)]) (fun _ j => decide (j = 0)) 2 (some 4) =
      [(3, 7)] :=
  ((C1_expand_enumeration (fun i => i) (fun _ => 1)
      (fun _ => [(9, 4), (5, 6), (3, 7)]) (fun _ j => decide (j = 0)) 2 (some 4)).2
    4 rfl (by norm_num)).trans (by decide)

/-! ### Stage E's scalar first-move discipline (claim C8). -/

/-- Claim C8: in the Stage-E refinement Dijkstra, the scalar first-edge-index
of a generated node is set from the originating edge when the predecessor is
the source itself, copied from the predecessor only on a strictly
cost-improving relaxation, and left unchanged on an exact cost tie (or any
non-improving candidate, or a null predecessor): first-relaxed-wins, never a
union; no other node's entry changes. -/
theorem C8_scalar_first_move (src : Nat) (fm : Nat → Nat) (fromOpt : Option (Nat × Nat))
    (succ_id : Nat) (succ_g : Option Nat) (edge_cost edge_id : Nat) :
    (∀ x, x ≠ succ_id →
      improve_on_generate_fn src fm fromOpt succ_id succ_g edge_cost edge_id x = fm x) ∧
    (fromOpt = none →
      improve_on_generate_fn src fm fromOpt succ_id succ_g edge_cost edge_id = fm) ∧
    (∀ f_id f_g, fromOpt = some (f_id, f_g) →
      (f_id = src →
        improve_on_generate_fn src fm fromOpt succ_id succ_g edge_cost edge_id succ_id =
          edge_id) ∧
      (f_id ≠ src → optLt (f_g + edge_cost) succ_g →
        improve_on_generate_fn src fm fromOpt succ_id succ_g edge_cost edge_id succ_id =
          fm f_id) ∧
      (f_id ≠ src → ¬ optLt (f_g + edge_cost) succ_g →
        improve_on_generate_fn src fm fromOpt succ_id succ_g edge_cost edge_id = fm)) := by
  refine ⟨?_, ?_, ?_⟩
  · intro x hx
    unfold improve_on_generate_fn
    cases fromOpt with
    | none => rfl
    | some fr =>
      dsimp only
      by_cases hf : fr.1 = src
      · rw [if_pos hf]
        exact Function.update_noteq hx _ _
      · rw [if_neg hf]
        cases succ_g with
        | none => exact Function.update_noteq hx _ _
        | some gv =>
          dsimp only
          by_cases hlt : fr.2 + edge_cost < gv
          · rw [if_pos hlt]
            exact Function.update_noteq hx _ _
          · rw [if_neg hlt]
  · rintro rfl
    rfl
  · rintro f_id f_g rfl
    refine ⟨?_, ?_, ?_⟩
    · intro hf
      unfold improve_on_generate_fn
      dsimp only
      rw [if_pos hf]
      exact Function.update_same _ _ _
    · intro hf hlt
      unfold improve_on_generate_fn
      dsimp only
      rw [if_neg hf]
      cases hg : succ_g with
      | none => exact Function.update_same _ _ _
      | some gv =>
        dsimp only
        rw [if_pos (by rw [hg] at hlt; exact hlt)]
        exact Function.update_same _ _ _
    · intro hf hnlt
      unfold improve_on_generate_fn
      dsimp only
      rw [if_neg hf]
      cases hg : succ_g with
      | none => exact absurd (by rw [hg]; trivial) hnlt
      | some gv =>
        dsimp only
        rw [if_neg (by rw [hg] at hnlt; exact hnlt)]

theorem C8_scalar_first_move_witness :
    improve_on_generate_fn 0 (fun _ => 0) (some (0, 0)) 1 none 5 7 1 = 7 :=
  ((C8_scalar_first_move 0 (fun _ => 0) (some (0, 0)) 1 none 5 7).2.2 0 0 rfl).1 rfl

/-! ### Engine theorems (claims C4, C5, C6, C9). -/

/-- Claim C6 (evaluating the code at the failing input): a query whose start
(or target) external id has no internal mapping makes `generate_start_node` /
`generate_target_node` return null, and `search` immediately dereferences
that null pointer (`start->get_id()`), modelled as the fault `.error ()` —
rather than returning the no-path outcome before the loop. -/
theorem C6_unmapped_query_faults :
    runSearch plainCfg unmappedStartPolicy (some 5) (some 7) 3 = .error () ∧
    runSearch plainCfg unmappedTargetPolicy (some 0) (some 7) 3 = .error () :=
  ⟨rfl, rfl⟩

/-- Original claim C4 refuted: with the expansion cutoff at 0 and start equal
to target, the goal test on the frontier minimum fires before the cutoff
checks, so the search returns the target (a found path of cost 0), not the
no-path outcome. -/
theorem C4_counterexample :
    resultVal (runSearch cutoff0Cfg zeroEdgePolicy (some 0) (some 0) 2) = some 0 ∧
    resultReason (runSearch cutoff0Cfg zeroEdgePolicy (some 0) (some 0) 2) =
      some .foundTarget := by
  constructor <;> rfl

/-- Claim C4 amended: with the expansion cutoff at 0, every query whose
generated start differs from the generated target terminates through the
cutoff check with the null no-path value before any expansion; only the
start-equals-target case escapes, because the goal test on the frontier
minimum precedes the cutoff checks. -/
theorem C4_cutoff_zero (cfg : EngineCfg) (P : ExpPolicy) (sExt tExt s t fuel : Nat)
    (h1 : P.toStart sExt = some s) (h2 : P.toTarget tExt = some t)
    (hst : s ≠ t) (hexp : cfg.expCutoff = some 0) :
    resultVal (runSearch cfg P (some sExt) (some tExt) (fuel + 1)) = none ∧
    resultReason (runSearch cfg P (some sExt) (some tExt) (fuel + 1)) =
      some .cutoffHit := by
  unfold runSearch
  dsimp only
  rw [h1]
  dsimp only
  rw [h2]
  dsimp only
  rw [searchLoop]
  have hpk : pqPeek
      { nodes := Function.update (fun _ => none) s
          (some { g := 0, f := cfg.hfn (P.xy s).1 (P.xy s).2 (P.xy t).1 (P.xy t).2,
                  par := none, expanded := false })
        openList := [s] } = some s := rfl
  rw [hpk]
  dsimp only
  rw [if_neg (by simp [hst])]
  rw [hexp]
  by_cases hc : (match cfg.costCutoff with
      | some c => decide (nodeF
          { nodes := Function.update (fun _ => none) s
              (some { g := 0, f := cfg.hfn (P.xy s).1 (P.xy s).2 (P.xy t).1 (P.xy t).2,
                      par := none, expanded := false })
            openList := [s] } s > c)
      | none => false) = true
  · rw [if_pos hc]
    exact ⟨rfl, rfl⟩
  · rw [if_neg hc]
    rw [if_pos (by norm_num)]
    exact ⟨rfl, rfl⟩

theorem C4_cutoff_zero_witness :
    resultVal (runSearch cutoff0Cfg zeroEdgePolicy (some 0) (some 1) 1) = none ∧
    resultReason (runSearch cutoff0Cfg zeroEdgePolicy (some 0) (some 1) 1) =
      some .cutoffHit :=
  C4_cutoff_zero cutoff0Cfg zeroEdgePolicy 0 1 0 1 0 rfl rfl (by norm_num) rfl

/-- Original claim C5 refuted: a frontier-exhausted run and a cutoff-halted
run return the identical value (the null node), so the caller cannot
distinguish the no-path and cutoff outcomes from the value the engine
returns. -/
theorem C5_counterexample :
    resultVal (runSearch plainCfg zeroEdgePolicy (some 1) (some 0) 3) =
      resultVal (runSearch cutoff0Cfg zeroEdgePolicy (some 0) (some 1) 3) ∧
    resultReason (runSearch plainCfg zeroEdgePolicy (some 1) (some 0) 3) =
      some .frontierExhausted ∧
    resultReason (runSearch cutoff0Cfg zeroEdgePolicy (some 0) (some 1) 3) =
      some .cutoffHit := by
  refine ⟨?_, ?_, ?_⟩ <;> rfl

lemma searchLoop_found_iff (cfg : EngineCfg) (P : ExpPolicy) (targetId : Option Nat)
    (gx gy : Int) :
    ∀ (fuel : Nat) (st : EngineState) (nExp : Nat),
      ((searchLoop cfg P targetId gx gy fuel st nExp).2.1).isSome = true ↔
        (searchLoop cfg P targetId gx gy fuel st nExp).2.2 = .foundTarget := by
  intro fuel
  induction fuel with
  | zero => intro st n; simp [searchLoop]
  | succ fuel ih =>
    intro st n
    rw [searchLoop]
    cases hpk : pqPeek st with
    | none => simp
    | some topId =>
      dsimp only
      by_cases ht : some topId = targetId
      · rw [if_pos ht]
        simp
      · rw [if_neg ht]
        by_cases hc1 : (match cfg.costCutoff with
            | some c => decide (nodeF st topId > c)
            | none => false) = true
        · rw [if_pos hc1]
          simp
        · rw [if_neg hc1]
          by_cases hc2 : (match cfg.expCutoff with
              | some c => decide (n ≥ c)
              | none => false) = true
          · rw [if_pos hc2]
            simp
          · rw [if_neg hc2]
            exact ih _ _

/-- Claim C5 amended: of the three runtime outcomes only path-found is
distinguishable from the returned value — the engine returns the found node
exactly when the goal test fired, and returns the null value for both the
frontier-exhausted and the cutoff outcomes (which are therefore not mutually
distinguishable from the return value, as the counterexample shows). -/
theorem C5_outcome_distinguishability (cfg : EngineCfg) (P : ExpPolicy)
    (startExt targetExt : Option Nat) (fuel : Nat) :
    ((resultVal (runSearch cfg P startExt targetExt fuel)).isSome = true ↔
      resultReason (runSearch cfg P startExt targetExt fuel) = some .foundTarget) := by
  cases startExt with
  | none => simp [runSearch, resultVal, resultReason]
  | some sExt =>
    unfold runSearch
    cases hs : P.toStart sExt with
    | none => simp [hs, resultVal, resultReason]
    | some sId =>
      cases targetExt with
      | none =>
        simp only [hs, resultVal, resultReason, Option.some.injEq]
        exact searchLoop_found_iff cfg P none _ _ fuel _ 0
      | some tExt =>
        cases ht : P.toTarget tExt with
        | none => simp [hs, ht, resultVal, resultReason]
        | some tId =>
          simp only [hs, ht, resultVal, resultReason, Option.some.injEq]
          exact searchLoop_found_iff cfg P (some tId) _ _ fuel _ 0

/-! ### The parent-tree invariant (claim C9). -/

lemma engineInv_empty : EngineInv emptyEngineState := by
  constructor
  · intro a b ra hra _
    exact Option.noConfusion hra
  · refine ⟨fun _ => 0, ?_⟩
    rintro a b ⟨ra, hra, _⟩
    exact Option.noConfusion hra

/-- Assigning node `nId` a fresh record whose parent is the expanded node
`cid` with no smaller g preserves the engine invariant, for any open list. -/
lemma engineInv_update (st : EngineState) (nId cid : Nat) (cur r : search_node)
    (hcur : st.nodes cid = some cur) (hcurexp : cur.expanded = true)
    (hnexp : ∀ n, st.nodes nId = some n → n.expanded = false)
    (hpar : r.par = some cid) (hg : cur.g ≤ r.g)
    (hinv : EngineInv st) (l2 : List Nat) :
    EngineInv { nodes := Function.update st.nodes nId (some r), openList := l2 } := by
  obtain ⟨hP, ⟨ord, hord⟩⟩ := hinv
  have hne : nId ≠ cid := by
    intro h
    subst h
    have hx := hnexp cur hcur
    rw [hcurexp] at hx
    exact Bool.noConfusion hx
  constructor
  · intro a b ra hra hpab
    replace hra : Function.update st.nodes nId (some r) a = some ra := hra
    show ∃ rb, Function.update st.nodes nId (some r) b = some rb ∧
      rb.expanded = true ∧ rb.g ≤ ra.g
    by_cases ha : a = nId
    · subst ha
      rw [Function.update_same] at hra
      have hr : ra = r := (Option.some.inj hra).symm
      subst hr
      rw [hpar] at hpab
      have hb : b = cid := (Option.some.inj hpab).symm
      subst hb
      refine ⟨cur, ?_, hcurexp, hg⟩
      rw [Function.update_noteq (Ne.symm hne)]
      exact hcur
    · rw [Function.update_noteq ha] at hra
      obtain ⟨rb, hrb, hrbexp, hrbg⟩ := hP a b ra hra hpab
      have hbne : b ≠ nId := by
        intro hbe
        subst hbe
        have hx := hnexp rb hrb
        rw [hrbexp] at hx
        exact Bool.noConfusion hx
      refine ⟨rb, ?_, hrbexp, hrbg⟩
      rw [Function.update_noteq hbne]
      exact hrb
  · refine ⟨Function.update ord nId (ord cid + 1), ?_⟩
    rintro a b ⟨ra, hra, hpab⟩
    replace hra : Function.update st.nodes nId (some r) a = some ra := hra
    by_cases ha : a = nId
    · subst ha
      rw [Function.update_same] at hra
      have hr : ra = r := (Option.some.inj hra).symm
      subst hr
      rw [hpar] at hpab
      have hb : b = cid := (Option.some.inj hpab).symm
      subst hb
      rw [Function.update_same, Function.update_noteq (Ne.symm hne)]
      omega
    · rw [Function.update_noteq ha] at hra
      have hbne : b ≠ nId := by
        obtain ⟨rb, hrb, hrbexp, _⟩ := hP a b ra hra hpab
        intro hbe
        subst hbe
        have hx := hnexp rb hrb
        rw [hrbexp] at hx
        exact Bool.noConfusion hx
      rw [Function.update_noteq ha, Function.update_noteq hbne]
      exact hord a b ⟨ra, hra, hpab⟩

/-- Marking a node expanded preserves the engine invariant. -/
lemma engineInv_mark (st : EngineState) (i : Nat) (l2 : List Nat) (hinv : EngineInv st) :
    EngineInv { nodes := markExpanded st.nodes i, openList := l2 } := by
  obtain ⟨hP, ⟨ord, hord⟩⟩ := hinv
  unfold markExpanded
  cases hni : st.nodes i with
  | none =>
    exact ⟨fun a b ra hra hpab => hP a b ra hra hpab,
      ⟨ord, fun a b h => hord a b h⟩⟩
  | some n =>
    constructor
    · intro a b ra hra hpab
      replace hra : Function.update st.nodes i (some { n with expanded := true }) a =
        some ra := hra
      show ∃ rb, Function.update st.nodes i (some { n with expanded := true }) b =
        some rb ∧ rb.expanded = true ∧ rb.g ≤ ra.g
      by_cases ha : a = i
      · rw [ha] at hra
        rw [Function.update_same] at hra
        have hr : ra = { n with expanded := true } := (Option.some.inj hra).symm
        subst hr
        obtain ⟨rb, hrb, hrbexp, hrbg⟩ := hP i b n hni hpab
        by_cases hb : b = i
        · subst hb
          have hrn : rb = n := by
            rw [hni] at hrb
            exact (Option.some.inj hrb).symm
          subst hrn
          exact ⟨{ rb with expanded := true }, Function.update_same _ _ _, rfl, hrbg⟩
        · refine ⟨rb, ?_, hrbexp, hrbg⟩
          rw [Function.update_noteq hb]
          exact hrb
      · rw [Function.update_noteq ha] at hra
        obtain ⟨rb, hrb, hrbexp, hrbg⟩ := hP a b ra hra hpab
        by_cases hb : b = i
        · subst hb
          have hrn : rb = n := by
            rw [hni] at hrb
            exact (Option.some.inj hrb).symm
          subst hrn
          exact ⟨{ rb with expanded := true }, Function.update_same _ _ _, rfl, hrbg⟩
        · refine ⟨rb, ?_, hrbexp, hrbg⟩
          rw [Function.update_noteq hb]
          exact hrb
    · refine ⟨ord, ?_⟩
      rintro a b ⟨ra, hra, hpab⟩
      replace hra : Function.update st.nodes i (some { n with expanded := true }) a =
        some ra := hra
      by_cases ha : a = i
      · rw [ha] at hra
        rw [Function.update_same] at hra
        have hr : ra = { n with expanded := true } := (Option.some.inj hra).symm
        subst hr
        rw [ha]
        exact hord i b ⟨n, hni, hpab⟩
      · rw [Function.update_noteq ha] at hra
        exact hord a b ⟨ra, hra, hpab⟩

/-- One successor-generation step preserves the invariant and never touches
the record of the node being expanded. -/
lemma genSucc_inv (cfg : EngineCfg) (P : ExpPolicy) (gx gy : Int) (cid : Nat)
    (cur : search_node) (st : EngineState) (sc : Nat × Nat)
    (hcur : st.nodes cid = some cur) (hcurexp : cur.expanded = true)
    (hinv : EngineInv st) :
    EngineInv (genSucc cfg P gx gy cid cur st sc) ∧
      (genSucc cfg P gx gy cid cur st sc).nodes cid = some cur := by
  have hscne : ∀ n, st.nodes sc.1 = some n → n.expanded = false → sc.1 ≠ cid := by
    intro n hn hnf heq
    rw [heq, hcur] at hn
    have hcn : cur = n := Option.some.inj hn
    rw [hcn, hnf] at hcurexp
    exact Bool.false_ne_true hcurexp
  unfold genSucc
  dsimp only
  cases hn : st.nodes sc.1 with
  | some n =>
    try rw [hn]
    dsimp only
    by_cases he : n.expanded = true
    · rw [if_pos he]
      exact ⟨hinv, hcur⟩
    · have hnf : n.expanded = false := by
        revert he
        cases n.expanded <;> simp
      have hne : sc.1 ≠ cid := hscne n hn hnf
      have hnexp : ∀ m, st.nodes sc.1 = some m → m.expanded = false := by
        intro m hm
        rw [hn] at hm
        rw [← Option.some.inj hm]
        exact hnf
      rw [if_neg he]
      by_cases hm : sc.1 ∈ st.openList
      · rw [if_pos hm]
        try dsimp only
        by_cases hgv : cur.g + sc.2 < n.g
        · rw [if_pos hgv]
          constructor
          · exact engineInv_update st sc.1 cid cur _ hcur hcurexp hnexp rfl
              (Nat.le_add_right _ _) hinv _
          · show Function.update st.nodes sc.1 _ cid = some cur
            rw [Function.update_noteq (Ne.symm hne)]
            exact hcur
        · rw [if_neg hgv]
          exact ⟨hinv, hcur⟩
      · rw [if_neg hm]
        try dsimp only
        cases cfg.ffn with
        | none =>
          try dsimp only
          constructor
          · exact engineInv_update st sc.1 cid cur _ hcur hcurexp hnexp rfl
              (Nat.le_add_right _ _) hinv _
          · show Function.update st.nodes sc.1 _ cid = some cur
            rw [Function.update_noteq (Ne.symm hne)]
            exact hcur
        | some fl =>
          try dsimp only
          by_cases hfl : fl sc.1 = true
          · rw [if_pos hfl]
            constructor
            · exact engineInv_update st sc.1 cid cur _ hcur hcurexp hnexp rfl
                (Nat.le_add_right _ _) hinv _
            · show Function.update st.nodes sc.1 _ cid = some cur
              rw [Function.update_noteq (Ne.symm hne)]
              exact hcur
          · rw [if_neg hfl]
            constructor
            · exact engineInv_update st sc.1 cid cur _ hcur hcurexp hnexp rfl
                (Nat.le_add_right _ _) hinv _
            · show Function.update st.nodes sc.1 _ cid = some cur
              rw [Function.update_noteq (Ne.symm hne)]
              exact hcur
  | none =>
    try rw [hn]
    dsimp only
    have hne : sc.1 ≠ cid := by
      intro heq
      rw [heq, hcur] at hn
      exact Option.noConfusion hn
    have hnexp : ∀ m, st.nodes sc.1 = some m → m.expanded = false := by
      intro m hm
      rw [hn] at hm
      exact Option.noConfusion hm
    cases cfg.ffn with
    | none =>
      try dsimp only
      constructor
      · exact engineInv_update st sc.1 cid cur _ hcur hcurexp hnexp rfl
          (Nat.le_add_right _ _) hinv _
      · show Function.update st.nodes sc.1 _ cid = some cur
        rw [Function.update_noteq (Ne.symm hne)]
        exact hcur
    | some fl =>
      try dsimp only
      by_cases hfl : fl sc.1 = true
      · rw [if_pos hfl]
        constructor
        · exact engineInv_update st sc.1 cid cur _ hcur hcurexp hnexp rfl
            (Nat.le_add_right _ _) hinv _
        · show Function.update st.nodes sc.1 _ cid = some cur
          rw [Function.update_noteq (Ne.symm hne)]
          exact hcur
      · rw [if_neg hfl]
        constructor
        · exact engineInv_update st sc.1 cid cur _ hcur hcurexp hnexp rfl
            (Nat.le_add_right _ _) hinv _
        · show Function.update st.nodes sc.1 _ cid = some cur
          rw [Function.update_noteq (Ne.symm hne)]
          exact hcur

lemma foldl_genSucc_inv (cfg : EngineCfg) (P : ExpPolicy) (gx gy : Int) (cid : Nat)
    (cur : search_node) :
    ∀ (l : List (Nat × Nat)) (st : EngineState),
      st.nodes cid = some cur → cur.expanded = true → EngineInv st →
      EngineInv (l.foldl (genSucc cfg P gx gy cid cur) st) := by
  intro l
  induction l with
  | nil => intro st _ _ h3; exact h3
  | cons e rest ih =>
    intro st h1 h2 h3
    simp only [List.foldl_cons]
    obtain ⟨hi, hc⟩ := genSucc_inv cfg P gx gy cid cur st e h1 h2 h3
    exact ih _ hc h2 hi

lemma expandStep_inv (cfg : EngineCfg) (P : ExpPolicy) (gx gy : Int) (cid : Nat)
    (st : EngineState)
    (hexp : ∀ cur, st.nodes cid = some cur → cur.expanded = true)
    (hinv : EngineInv st) :
    EngineInv (expandStep cfg P gx gy cid st) := by
  unfold expandStep
  cases hc : st.nodes cid with
  | none => exact hinv
  | some cur => exact foldl_genSucc_inv cfg P gx gy cid cur _ _ hc (hexp cur hc) hinv

lemma mark_expanded_at (nodes : Nat → Option search_node) (i : Nat) :
    ∀ cur, markExpanded nodes i i = some cur → cur.expanded = true := by
  intro cur h
  unfold markExpanded at h
  cases hn : nodes i with
  | none =>
    simp [hn] at h
  | some n =>
    rw [hn] at h
    dsimp only at h
    rw [Function.update_same] at h
    rw [← Option.some.inj h]

lemma searchLoop_inv (cfg : EngineCfg) (P : ExpPolicy) (targetId : Option Nat)
    (gx gy : Int) :
    ∀ (fuel : Nat) (st : EngineState) (nExp : Nat), EngineInv st →
      EngineInv (searchLoop cfg P targetId gx gy fuel st nExp).1 := by
  intro fuel
  induction fuel with
  | zero => intro st n h; exact h
  | succ fuel ih =>
    intro st n h
    rw [searchLoop]
    cases hpk : pqPeek st with
    | none => exact h
    | some topId =>
      dsimp only
      by_cases ht : some topId = targetId
      · rw [if_pos ht]
        exact h
      · rw [if_neg ht]
        by_cases hc1 : (match cfg.costCutoff with
            | some c => decide (nodeF st topId > c)
            | none => false) = true
        · rw [if_pos hc1]
          exact h
        · rw [if_neg hc1]
          by_cases hc2 : (match cfg.expCutoff with
              | some c => decide (n ≥ c)
              | none => false) = true
          · rw [if_pos hc2]
            exact h
          · rw [if_neg hc2]
            apply ih
            apply expandStep_inv
            · exact mark_expanded_at st.nodes topId
            · exact engineInv_mark st topId _ h

lemma engineInv_init (sId g f : Nat) (e : Bool) :
    EngineInv ⟨Function.update (fun _ => none) sId (some ⟨g, f, none, e⟩), [sId]⟩ := by
  constructor
  · intro a b ra hra hpab
    replace hra : Function.update (fun _ => none) sId (some ⟨g, f, none, e⟩) a = some ra :=
      hra
    by_cases ha : a = sId
    · rw [ha, Function.update_same] at hra
      rw [← Option.some.inj hra] at hpab
      exact Option.noConfusion hpab
    · rw [Function.update_noteq ha] at hra
      exact Option.noConfusion hra
  · refine ⟨fun _ => 0, ?_⟩
    rintro a b ⟨ra, hra, hpab⟩
    replace hra : Function.update (fun _ => none) sId (some ⟨g, f, none, e⟩) a = some ra :=
      hra
    by_cases ha : a = sId
    · rw [ha, Function.update_same] at hra
      rw [← Option.some.inj hra] at hpab
      exact Option.noConfusion hpab
    · rw [Function.update_noteq ha] at hra
      exact Option.noConfusion hra

lemma measured_acyclic (st : EngineState) (h : MeasuredParents st) :
    AcyclicParents st := by
  obtain ⟨ord, hord⟩ := h
  intro n hn
  have key : ∀ a b, Relation.TransGen (parentRel st) a b → ord b < ord a := by
    intro a b hab
    induction hab with
    | single h1 => exact hord _ _ h1
    | tail _ h2 ih => exact lt_trans (hord _ _ h2) ih
  exact absurd (key n n hn) (lt_irrefl _)

/-- Original claim C9 refuted at a concrete input: over the zero-weight edge
0 → 1, node 1 is assigned parent 0 while receiving g-cost 0 — equal to, not
strictly greater than, its parent's g-cost. -/
theorem C9_counterexample :
    (resultState (runSearch plainCfg zeroEdgePolicy (some 0) (some 1) 2)).nodes 1 =
      some { g := 0, f := 0, par := some 0, expanded := false } ∧
    (resultState (runSearch plainCfg zeroEdgePolicy (some 0) (some 1) 2)).nodes 0 =
      some { g := 0, f := 0, par := none, expanded := true } := by
  constructor <;> rfl

/-- Claim C9 amended: throughout every search episode the parent references
form an acyclic structure, and a node is only ever assigned a parent that is
already expanded and whose (frozen) g-cost is no greater than — not
necessarily strictly smaller than, since edge weights may be zero — the
g-cost the node receives at that assignment. -/
theorem C9_parent_tree (cfg : EngineCfg) (P : ExpPolicy)
    (startExt targetExt : Option Nat) (fuel : Nat) :
    ParentInv (resultState (runSearch cfg P startExt targetExt fuel)) ∧
    AcyclicParents (resultState (runSearch cfg P startExt targetExt fuel)) := by
  have key : EngineInv (resultState (runSearch cfg P startExt targetExt fuel)) := by
    cases startExt with
    | none => exact engineInv_empty
    | some sExt =>
      unfold runSearch
      dsimp only
      cases hs : P.toStart sExt with
      | none => exact engineInv_empty
      | some sId =>
        dsimp only
        cases targetExt with
        | none =>
          exact searchLoop_inv cfg P none _ _ fuel _ 0 (engineInv_init sId 0 _ false)
        | some tExt =>
          dsimp only
          cases ht : P.toTarget tExt with
          | none => exact engineInv_empty
          | some tId =>
            dsimp only
            exact searchLoop_inv cfg P (some tId) _ _ fuel _ 0 (engineInv_init sId 0 _ false)
  exact ⟨key.1, measured_acyclic _ key.2⟩

theorem C9_parent_tree_witness :
    ∃ rb, (resultState (runSearch plainCfg zeroEdgePolicy (some 0) (some 1) 2)).nodes 0 =
        some rb ∧ rb.expanded = true ∧ rb.g ≤ 0 :=
  (C9_parent_tree plainCfg zeroEdgePolicy (some 0) (some 1) 2).1 1 0
    { g := 0, f := 0, par := some 0, expanded := false } (by decide) rfl

/-! ### Stage D: which apex's down-closure is merged into up-edge labels
(claim C3). -/

lemma labWrite_same (lab : Nat → Nat → down_dfs_label) (i j : Nat) (v : down_dfs_label) :
    labWrite lab i j v i j = v := by
  unfold labWrite
  rw [Function.update_same, Function.update_same]

lemma labWrite_row_ne (lab : Nat → Nat → down_dfs_label) (i j : Nat)
    (v : down_dfs_label) (u : Nat) (hu : u ≠ i) : labWrite lab i j v u = lab u := by
  unfold labWrite
  rw [Function.update_noteq hu]

lemma labWrite_col_ne (lab : Nat → Nat → down_dfs_label) (i j : Nat)
    (v : down_dfs_label) (k : Nat) (hk : k ≠ j) : labWrite lab i j v i k = lab i k := by
  unfold labWrite
  rw [Function.update_same, Function.update_noteq hk]

/-- When every up-successor's `up_apex` memo is already set, the apex loop of
`up_label_fn` performs no recursion and leaves the builder state unchanged. -/
lemma up_apex_edges_memo (G : LabGraph) (rec : Nat → DLState → DLState) (src : Nat) :
    ∀ (edges : List (Nat × Nat)) (st : DLState) (apex : Nat),
      (∀ e ∈ edges, ¬ (G.rank e.1 < G.rank src) → (st.up_apex e.1).isSome) →
      (up_apex_edges G rec src edges st apex).1 = st := by
  intro edges
  induction edges with
  | nil => intro st apex _; rfl
  | cons e rest ih =>
    intro st apex h
    unfold up_apex_edges
    by_cases hr : G.rank e.1 < G.rank src
    · rw [if_pos hr]
      exact ih st apex (fun x hx hrx => h x (List.mem_cons_of_mem e hx) hrx)
    · rw [if_neg hr]
      dsimp only
      have hs : (st.up_apex e.1).isSome := h e (List.mem_cons_self e rest) hr
      have hnone : ¬ ((st.up_apex e.1).isNone = true) := by
        cases hx : st.up_apex e.1
        · rw [hx] at hs
          exact absurd hs (by simp)
        · simp [hx]
      rw [if_neg hnone]
      exact ih st _ (fun x hx hrx => h x (List.mem_cons_of_mem e hx) hrx)

/-- The merge loop of `up_label_fn`: each up-edge's label is merged with
`node_labels[apex_id]`, down-edges and everything else are untouched. -/
lemma up_merge_edges_lab (G : LabGraph) (src apex_id : Nat) :
    ∀ (edges : List (Nat × Nat)) (idx0 : Nat) (st : DLState),
      (∀ u, u ≠ src → (up_merge_edges G src apex_id edges idx0 st).lab u = st.lab u) ∧
      (up_merge_edges G src apex_id edges idx0 st).node_labels = st.node_labels ∧
      (up_merge_edges G src apex_id edges idx0 st).up_apex = st.up_apex ∧
      (∀ j, j < idx0 → (up_merge_edges G src apex_id edges idx0 st).lab src j =
        st.lab src j) ∧
      (∀ k e, edges.get? k = some e →
        (up_merge_edges G src apex_id edges idx0 st).lab src (idx0 + k) =
          (if G.rank e.1 < G.rank src then st.lab src (idx0 + k)
           else (st.lab src (idx0 + k)).merge (st.node_labels apex_id))) := by
  intro edges
  induction edges with
  | nil =>
    intro idx0 st
    refine ⟨fun _ _ => rfl, rfl, rfl, fun _ _ => rfl, fun k e hk => ?_⟩
    simp at hk
  | cons e0 rest ih =>
    intro idx0 st
    unfold up_merge_edges
    by_cases hr : G.rank e0.1 < G.rank src
    · rw [if_pos hr]
      obtain ⟨i1, i2, i3, i5, i6⟩ := ih (idx0 + 1) st
      refine ⟨i1, i2, i3, fun j hj => i5 j (by omega), ?_⟩
      intro k e hk
      cases k with
      | zero =>
        have he : e0 = e := by simpa using hk
        subst he
        rw [if_pos hr]
        have := i5 (idx0 + 0) (by omega)
        simpa using this
      | succ kk =>
        have hk2 : rest.get? kk = some e := by simpa using hk
        have hres := i6 kk e hk2
        rw [show idx0 + (kk + 1) = (idx0 + 1) + kk by omega]
        exact hres
    · rw [if_neg hr]
      dsimp only
      obtain ⟨i1, i2, i3, i5, i6⟩ := ih (idx0 + 1)
        { st with lab := labWrite st.lab src idx0 ((st.lab src idx0).merge (st.node_labels apex_id)) }
      refine ⟨?_, ?_, ?_, ?_, ?_⟩
      · intro u hu
        rw [i1 u hu]
        exact labWrite_row_ne st.lab src idx0 _ u hu
      · rw [i2]
      · rw [i3]
      · intro j hj
        rw [i5 j (by omega)]
        exact labWrite_col_ne st.lab src idx0 _ j (by omega)
      · intro k e hk
        cases k with
        | zero =>
          have he : e0 = e := by simpa using hk
          subst he
          rw [if_neg hr]
          have hstep := i5 (idx0 + 0) (by omega)
          rw [show idx0 + 0 = idx0 by omega] at hstep ⊢
          rw [hstep]
          exact labWrite_same st.lab src idx0 _
        | succ kk =>
          have hk2 : rest.get? kk = some e := by simpa using hk
          have hres := i6 kk e hk2
          rw [show idx0 + (kk + 1) = (idx0 + 1) + kk by omega]
          rw [hres]
          have hc : labWrite st.lab src idx0
              ((st.lab src idx0).merge (st.node_labels apex_id)) src ((idx0 + 1) + kk) =
              st.lab src ((idx0 + 1) + kk) :=
            labWrite_col_ne _ _ _ _ _ (by omega)
          by_cases hrr : G.rank e.1 < G.rank src
          · rw [if_pos hrr, if_pos hrr]
            exact hc
          · rw [if_neg hrr, if_neg hrr]
            exact congrArg (fun z => z.merge (st.node_labels apex_id)) hc

set_option maxRecDepth 1000000 in
set_option maxHeartbeats 4000000 in
/-- Original claim C3 refuted at a concrete input: in `G3`, the up-apex of
node 3 (the target of up-edge (2,3)) is node 5, yet the final label of that
edge contains postorder id 0, which the Stage-C label of the edge merged with
node 5's down-closure label does not contain — Stage D merged node 6's
down-closure (the up-apex of the *source* node 2) instead. -/
theorem C3_counterexample :
    (compute_labels G3 8).up_apex 3 = some 5 ∧
    ((compute_labels G3 8).lab 2 0).ids_.containsI 0 = true ∧
    (((label_fn G3 8 (find_apex G3) initDLState).lab 2 0).merge
       ((compute_labels G3 8).node_labels 5)).ids_.containsI 0 = false := by
  refine ⟨by decide, by decide, by decide⟩

/-- Claim C3 amended: for every up-edge (u, v) — one whose target does not
rank below its source — Stage D extends the edge's label with the Stage-C
down-closure label of the up-closure apex computed for the *source* u (the
highest-rank node in u's whole up-closure, the same apex for all of u's
up-edges, and the value memoised as `up_apex[u]`), not the up-apex of the
edge's target v; down-edges and all other rows are untouched.  Stated for a
state whose up-successor memos are complete, which is how the recursion
reaches the merge loop. -/
theorem C3_up_edge_labels (G : LabGraph) (st : DLState) (source_id fuel : Nat)
    (hmemo : ∀ e ∈ G.adj source_id, ¬ (G.rank e.1 < G.rank source_id) →
      (st.up_apex e.1).isSome) :
    ((up_label_fn G (fuel + 1) source_id st).up_apex source_id =
      some (up_apex_edges G (up_label_fn G fuel) source_id (G.adj source_id) st source_id).2) ∧
    (∀ u, u ≠ source_id → (up_label_fn G (fuel + 1) source_id st).lab u = st.lab u) ∧
    ((up_label_fn G (fuel + 1) source_id st).node_labels = st.node_labels) ∧
    (∀ k e, (G.adj source_id).get? k = some e →
      (up_label_fn G (fuel + 1) source_id st).lab source_id k =
        (if G.rank e.1 < G.rank source_id then st.lab source_id k
         else (st.lab source_id k).merge (st.node_labels
           (up_apex_edges G (up_label_fn G fuel) source_id (G.adj source_id) st source_id).2))) := by
  set A := (up_apex_edges G (up_label_fn G fuel) source_id (G.adj source_id)
    st source_id).2 with hA
  have hst1 : (up_apex_edges G (up_label_fn G fuel) source_id (G.adj source_id)
      st source_id).1 = st :=
    up_apex_edges_memo G (up_label_fn G fuel) source_id (G.adj source_id) st source_id hmemo
  have hunfold : up_label_fn G (fuel + 1) source_id st =
      up_merge_edges G source_id A (G.adj source_id) 0
        { st with up_apex := Function.update st.up_apex source_id (some A) } := by
    rw [up_label_fn]
    dsimp only
    rw [hst1, ← hA]
  rw [hunfold]
  obtain ⟨i1, i2, i3, _, i6⟩ := up_merge_edges_lab G source_id A (G.adj source_id) 0
    { st with up_apex := Function.update st.up_apex source_id (some A) }
  refine ⟨?_, ?_, ?_, ?_⟩
  · rw [i3]
    exact Function.update_same _ _ _
  · intro u hu
    exact i1 u hu
  · exact i2
  · intro k e hk
    have := i6 k e hk
    simpa using this

theorem C3_up_edge_labels_witness :
    (up_label_fn G3 1 2 stW).lab 2 0 =
      (stW.lab 2 0).merge (stW.node_labels
        (up_apex_edges G3 (up_label_fn G3 0) 2 (G3.adj 2) stW 2).2) := by
  have h := (C3_up_edge_labels G3 stW 2 0 (by decide)).2.2.2 0 (3, 1) (by decide)
  rw [h]
  rw [if_neg (by decide)]

/-! ### Stage E refinement discards the structural labels (claim C7). -/

lemma foldl_labWrite_empty (G : LabGraph) (i : Nat) :
    ∀ (L : List Nat) (lab : Nat → Nat → down_dfs_label),
      (∀ u, u ≠ i → (L.foldl (fun l idx =>
        labWrite l i idx down_dfs_label.emptyLabel) lab) u = lab u) ∧
      (∀ idx, idx ∈ L → (L.foldl (fun l idx =>
        labWrite l i idx down_dfs_label.emptyLabel) lab) i idx =
          down_dfs_label.emptyLabel) ∧
      (∀ idx, idx ∉ L → (L.foldl (fun l idx =>
        labWrite l i idx down_dfs_label.emptyLabel) lab) i idx = lab i idx) := by
  intro L
  induction L with
  | nil => intro lab; exact ⟨fun _ _ => rfl, fun idx h => absurd h (List.not_mem_nil idx),
      fun _ _ => rfl⟩
  | cons j rest ih =>
    intro lab
    simp only [List.foldl_cons]
    obtain ⟨i1, i2, i3⟩ := ih (labWrite lab i j down_dfs_label.emptyLabel)
    refine ⟨?_, ?_, ?_⟩
    · intro u hu
      rw [i1 u hu]
      exact labWrite_row_ne lab i j _ u hu
    · intro idx hidx
      rcases List.mem_cons.mp hidx with rfl | hmem
      · by_cases hr : idx ∈ rest
        · exact i2 idx hr
        · rw [i3 idx hr]
          exact labWrite_same lab i idx _
      · exact i2 idx hmem
    · intro idx hidx
      have hj : idx ≠ j := fun h => hidx (h ▸ List.mem_cons_self j rest)
      have hr : idx ∉ rest := fun h => hidx (List.mem_cons_of_mem j h)
      rw [i3 idx hr]
      exact labWrite_col_ne lab i j _ idx hj

lemma reset_row_at (G : LabGraph) (i : Nat) (lab : Nat → Nat → down_dfs_label) :
    (∀ idx, idx < (G.adj i).length → reset_row G i lab i idx =
      down_dfs_label.emptyLabel) ∧
    (∀ u, u ≠ i → reset_row G i lab u = lab u) := by
  obtain ⟨i1, i2, _⟩ := foldl_labWrite_empty G i (List.range (G.adj i).length) lab
  exact ⟨fun idx h => i2 idx (List.mem_range.mpr h), i1⟩

lemma foldl_reset_sources (G : LabGraph) :
    ∀ (L : List Nat) (lab : Nat → Nat → down_dfs_label) (i : Nat),
      (i ∈ L → ∀ idx, idx < (G.adj i).length →
        (L.foldl (fun l k => reset_row G k l) lab) i idx = down_dfs_label.emptyLabel) ∧
      (i ∉ L → (L.foldl (fun l k => reset_row G k l) lab) i = lab i) := by
  intro L
  induction L with
  | nil =>
    intro lab i
    exact ⟨fun h => absurd h (List.not_mem_nil i), fun _ => rfl⟩
  | cons s rest ih =>
    intro lab i
    simp only [List.foldl_cons]
    constructor
    · intro hmem idx hidx
      rcases List.mem_cons.mp hmem with rfl | hr
      · by_cases hir : i ∈ rest
        · exact (ih (reset_row G i lab) i).1 hir idx hidx
        · rw [(ih (reset_row G i lab) i).2 hir]
          exact (reset_row_at G i lab).1 idx hidx
      · exact (ih (reset_row G s lab) i).1 hr idx hidx
    · intro hnm
      have hs : i ≠ s := fun h => hnm (h ▸ List.mem_cons_self s rest)
      have hr : i ∉ rest := fun h => hnm (List.mem_cons_of_mem s h)
      rw [(ih (reset_row G s lab) i).2 hr]
      exact (reset_row_at G s lab).2 i hs

/-- Claim C7 amended: for every node selected by Stage E (out-degree at least
100), the refinement pass first discards the structural Stage C/D label of
every outgoing edge, resetting it to the empty label, and rebuilds it only
from the nodes settled through that edge — so the refined label is not
bounded below (by containment) by the structural label it replaces, and can
be strictly smaller (see the counterexample). -/
theorem C7_refinement_reset (G : LabGraph) (lab : Nat → Nat → down_dfs_label)
    (i idx : Nat) (hi : i ∈ improve_sources G) (hidx : idx < (G.adj i).length) :
    improve_reset G lab i idx = down_dfs_label.emptyLabel :=
  (foldl_reset_sources G (improve_sources G) lab i).1 hi idx hidx

theorem C7_refinement_reset_witness :
    improve_reset G7 (fun _ _ => down_dfs_label.emptyLabel) 0 0 =
      down_dfs_label.emptyLabel :=
  C7_refinement_reset G7 (fun _ _ => down_dfs_label.emptyLabel) 0 0
    (by decide) (by decide)

set_option maxRecDepth 1000000 in
set_option maxHeartbeats 32000000 in
/-- Original claim C7 refuted at a concrete input: node 0 of `G7` is
relabelled by Stage E (out-degree 100); the structural label of its edge 0
contains the tuple (postorder id 0, rank 1, coordinate (0,0), partition 0)
— node 3's attributes, down-reachable through that edge — but the refined
label does not, because node 3's shortest path from node 0 uses a different
first edge. -/
theorem C7_counterexample :
    (0 ∈ improve_sources G7) ∧
    ((compute_labels G7 4).lab 0 0).containsTuple 0 1 0 0 0 = true ∧
    ((improve_labels G7 6 (compute_labels G7 4)).lab 0 0).containsTuple 0 1 0 0 0 =
      false := by
  refine ⟨by decide, by decide, by decide⟩

end Warthog
